import Mathlib

/-!
Verification of the razdel benchmark harness (src/bench/bench_python.py) and of
the rule-based segmentation engine that the specification describes.

The repository slice under src/ contains only the benchmark harness; the
segmentation engine itself (tokenize / sentenize) is not present.  Definitions
for the engine below are therefore modelled from the spec, as marked in their
doc comments.  The harness's pure data processing is embedded directly from
src/bench/bench_python.py.
-/

namespace Razdel

/-! ## Python string primitives used by the harness -/

/-- Python whitespace test used by `str.strip` / `str.split`, stated on code
points: the ASCII whitespace characters (U+0009-U+000D, U+0020), the
file/group/record/unit separators U+001C-U+001F, NEL U+0085, NBSP U+00A0, and
the Unicode space separators U+1680, U+2000-U+200A, U+2028, U+2029, U+202F,
U+205F, U+3000. -/
def pyIsSpace (c : Char) : Bool :=
  c.toNat = 0x20 || c.toNat = 0x9 || c.toNat = 0xa || c.toNat = 0xd ||
  c.toNat = 0xb || c.toNat = 0xc ||
  c.toNat = 0x1c || c.toNat = 0x1d || c.toNat = 0x1e || c.toNat = 0x1f ||
  c.toNat = 0x85 || c.toNat = 0xa0 || c.toNat = 0x1680 ||
  (0x2000 ≤ c.toNat && c.toNat ≤ 0x200a) ||
  c.toNat = 0x2028 || c.toNat = 0x2029 || c.toNat = 0x202f ||
  c.toNat = 0x205f || c.toNat = 0x3000

/-- Python `l.strip()`: drop leading and trailing whitespace. -/
def pyStrip (cs : List Char) : List Char :=
  ((cs.dropWhile pyIsSpace).reverse.dropWhile pyIsSpace).reverse

/-- Python `l.rstrip("\n")`: drop all trailing newline characters. -/
def pyRstripNl (cs : List Char) : List Char :=
  (cs.reverse.dropWhile (fun c => c = '\n')).reverse

/-- Python `l.split("|")`: split on every occurrence of the bar character. -/
def pySplitPipe : List Char → List (List Char)
  | [] => [[]]
  | c :: rest =>
    if c = '|' then [] :: pySplitPipe rest
    else
      match pySplitPipe rest with
      | [] => [[c]]
      | p :: ps => (c :: p) :: ps

/-! ## The harness's data pipeline (src/bench/bench_python.py, lines 6-13) -/

/-- The filter `if l.strip()` in the line-loading comprehensions: a line is
kept iff stripping it leaves a non-empty string. -/
def keepLine (l : List Char) : Bool := !(pyStrip l).isEmpty

/-- `[l.rstrip("\n") for l in f if l.strip()]`. -/
def loadLines (ls : List (List Char)) : List (List Char) :=
  (ls.filter keepLine).map pyRstripNl

/-- `"".join(l.split("|"))` applied to one loaded line. -/
def benchText (l : List Char) : List Char := (pySplitPipe l).flatten

/-- The texts the harness benchmarks, derived from the raw fixture lines. -/
def benchTexts (ls : List (List Char)) : List (List Char) :=
  (loadLines ls).map benchText

/-- Everything the harness computes from the fixture lines besides wall-clock
times: the reported counts, the warm-up calls over the first 100 texts, and
the three timed runs, each invoking the external segmentation functions on
every loaded text (src/bench/bench_python.py, lines 15-31). -/
structure BenchOutput (α β : Type) where
  sentCount : Nat
  tokCount : Nat
  warmSent : List (List α)
  warmTok : List (List β)
  runs : List (List (List α) × List (List β))
deriving DecidableEq

/-- The harness as a function of the two external library entry points and the
raw fixture lines.  Timing and printing are the only parts not represented. -/
def benchHarness (sentenizeFn : List Char → List α) (tokenizeFn : List Char → List β)
    (sentLines tokLines : List (List Char)) : BenchOutput α β :=
  let sentTexts := benchTexts sentLines
  let tokTexts := benchTexts tokLines
  { sentCount := sentTexts.length
    tokCount := tokTexts.length
    warmSent := (sentTexts.take 100).map sentenizeFn
    warmTok := (tokTexts.take 100).map tokenizeFn
    runs := (List.range 3).map fun _ =>
      (sentTexts.map sentenizeFn, tokTexts.map tokenizeFn) }

/-! ## Spans and tokens (spec section 3) -/

/-- Modelled from the spec: a half-open offset range into the source text. -/
structure Span where
  start : Nat
  stop : Nat
deriving DecidableEq

/-- Modelled from the spec: the category tag carried by a token. -/
inductive TokKind
  | word
  | number
  | punct
  | terminal
  | quote
  | other
deriving DecidableEq

/-- Modelled from the spec: a Token is a Span plus a category tag. -/
structure Token where
  span : Span
  kind : TokKind
deriving DecidableEq

/-! ## CharClassifier (spec section 4.1) -/

/-- Modelled from the spec: the per-code-point tag set of the CharClassifier. -/
inductive CharTag
  | letter
  | digit
  | space
  | punct
  | quoteOpen
  | quoteClose
  | terminalPunct
  | other
deriving DecidableEq

/-- Modelled from the spec: the characters that can end a sentence. -/
def isTerminalChar (c : Char) : Bool := c = '.' || c = '!' || c = '?'

/-- Modelled from the spec: CharClassifier.  Pure, total; unknown code points
map to `other`.  No whitespace character is a letter or a digit, so the
position of the whitespace test does not affect the classification. -/
def classify (c : Char) : CharTag :=
  if c.isAlpha then .letter
  else if c.isDigit then .digit
  else if pyIsSpace c then .space
  else if isTerminalChar c then .terminalPunct
  else if c = '(' || c = '[' || c = '«' then .quoteOpen
  else if c = ')' || c = ']' || c = '»' || c = '"' then .quoteClose
  else if c = ',' || c = ';' || c = ':' || c = '-' then .punct
  else .other

/-! ## TokenRuleEngine (spec section 4.2) -/

/-- Modelled from the spec: the abbreviation exception set, an explicit
immutable configuration value ("trailing period forms" such as `Dr.`). -/
def defaultAbbrevs : List (List Char) :=
  ["Dr.".data, "Mr.".data, "Mrs.".data, "Ms.".data, "Prof.".data,
   "St.".data, "etc.".data, "vs.".data]

/-- Length of the leading run of letters. -/
def letterRun (cs : List Char) : Nat := (cs.takeWhile Char.isAlpha).length

/-- Length of the leading run of digits. -/
def digitRun (cs : List Char) : Nat := (cs.takeWhile Char.isDigit).length

/-- Length of the leading run of whitespace. -/
def spaceRun (cs : List Char) : Nat := (cs.takeWhile pyIsSpace).length

/-- Modelled from the spec: the ordered rule cascade of the TokenRuleEngine at
one cursor position.  Returns the number of characters consumed and the kind
of the emitted token (`none` for a whitespace run, which emits no token):
digits with an optional decimal separator form a Number; letters form a Word,
absorbing a trailing period when the result is a configured abbreviation;
whitespace runs are boundaries; punctuation and quotes are single-character
tokens; any other code point falls through to the single-character default
rule.  Returns `none` only at the end of the text. -/
def matchRule (ab : List (List Char)) (cs : List Char) : Option (Nat × Option TokKind) :=
  match cs with
  | [] => none
  | c :: _ =>
    match classify c with
    | .space => some (spaceRun cs, none)
    | .digit =>
      match cs.drop (digitRun cs) with
      | sep :: c2 :: _ =>
        if (sep = '.' || sep = ',') && c2.isDigit then
          some (digitRun cs + 2 + digitRun (cs.drop (digitRun cs + 2)), some .number)
        else some (digitRun cs, some .number)
      | _ => some (digitRun cs, some .number)
    | .letter =>
      match cs.drop (letterRun cs) with
      | '.' :: _ =>
        if ab.contains (cs.take (letterRun cs) ++ ['.']) then
          some (letterRun cs + 1, some .word)
        else some (letterRun cs, some .word)
      | _ => some (letterRun cs, some .word)
    | .terminalPunct => some (1, some .terminal)
    | .quoteOpen => some (1, some .quote)
    | .quoteClose => some (1, some .quote)
    | .punct => some (1, some .punct)
    | .other => some (1, some .other)

/-- Modelled from the spec: the left-to-right scan loop of the
TokenRuleEngine.  `fuel` bounds the number of steps; each step consumes at
least one character, so `cs.length` fuel always suffices. -/
def tokLoop (ab : List (List Char)) : Nat → List Char → Nat → List Token
  | 0, _, _ => []
  | fuel + 1, cs, pos =>
    match matchRule ab cs with
    | none => []
    | some (k, some kind) => ⟨⟨pos, pos + k⟩, kind⟩ :: tokLoop ab fuel (cs.drop k) (pos + k)
    | some (k, none) => tokLoop ab fuel (cs.drop k) (pos + k)

/-- Modelled from the spec: `tokenize` over an explicit character list and
abbreviation configuration. -/
def tokenizeChars (ab : List (List Char)) (cs : List Char) : List Token :=
  tokLoop ab cs.length cs 0

/-- Modelled from the spec: the library entry point `tokenize`. -/
def tokenize (s : String) : List Token := tokenizeChars defaultAbbrevs s.data

def errMsg : String := "no rule matched"

/-- Modelled from the spec: the scan loop with an explicit error outcome for a
position where no rule matches; the fallback rules make that outcome
unreachable. -/
def tokLoopE (ab : List (List Char)) : Nat → List Char → Nat → Except String (List Token)
  | 0, _, _ => .ok []
  | fuel + 1, cs, pos =>
    match matchRule ab cs with
    | none => if cs.isEmpty then .ok [] else .error errMsg
    | some (k, some kind) =>
      (tokLoopE ab fuel (cs.drop k) (pos + k)).map (⟨⟨pos, pos + k⟩, kind⟩ :: ·)
    | some (k, none) => tokLoopE ab fuel (cs.drop k) (pos + k)

/-- Modelled from the spec: `tokenize` in the error-reporting presentation. -/
def tokenizeE (s : String) : Except String (List Token) :=
  tokLoopE defaultAbbrevs s.data.length s.data 0

/-! ## SentenceRuleEngine (spec section 4.3) -/

/-- Whether the character at offset `i` is an uppercase letter. -/
def upperAt (cs : List Char) (i : Nat) : Bool :=
  match cs.drop i with
  | [] => false
  | c :: _ => c.isUpper

/-- Whether a token is a quotation/parenthesis token. -/
def isQuoteTok (t : Token) : Bool :=
  match t.kind with
  | .quote => true
  | _ => false

/-- Modelled from the spec: the grouping loop of the SentenceRuleEngine.  It
walks the token sequence accumulating a buffer; at a terminal-punctuation
token it first absorbs any immediately following quotation tokens, then closes
the sentence when the next token starts with an uppercase letter or the text
ends; otherwise it keeps accumulating.  A trailing non-empty buffer is flushed
as a final sentence. -/
def sentGroups (cs : List Char) : Nat → List Token → List Token → List (List Token)
  | _, [], buf => if buf.isEmpty then [] else [buf]
  | 0, t :: rest, buf => [buf ++ t :: rest]
  | fuel + 1, t :: rest, buf =>
    match t.kind with
    | .terminal =>
      match rest.dropWhile isQuoteTok with
      | [] => [buf ++ t :: rest.takeWhile isQuoteTok]
      | u :: rest2 =>
        if upperAt cs u.span.start then
          (buf ++ t :: rest.takeWhile isQuoteTok) :: sentGroups cs fuel (u :: rest2) []
        else sentGroups cs fuel (u :: rest2) (buf ++ t :: rest.takeWhile isQuoteTok)
    | _ => sentGroups cs fuel rest (buf ++ [t])

/-- The stop offset of the last token of a group (default `d` for `[]`). -/
def lastStop (d : Nat) : List Token → Nat
  | [] => d
  | t :: ts => lastStop t.span.stop ts

/-- The span covered by one group of tokens: from the first token's start to
the last token's stop. -/
def groupSpan : List Token → Span
  | [] => ⟨0, 0⟩
  | t :: ts => ⟨t.span.start, lastStop t.span.stop ts⟩

/-- Modelled from the spec: the token runs covered by the sentences of a text. -/
def sentGroupsOf (ab : List (List Char)) (cs : List Char) : List (List Token) :=
  sentGroups cs (tokenizeChars ab cs).length (tokenizeChars ab cs) []

/-- Modelled from the spec: the sentence spans obtained by grouping a given
token sequence of the text `cs`. -/
def sentsOfToks (cs : List Char) (toks : List Token) : List Span :=
  (sentGroups cs toks.length toks []).map groupSpan

/-- Modelled from the spec: `sentenize` over an explicit character list:
tokenize, group the tokens into sentences, and emit each group's span. -/
def sentenizeChars (ab : List (List Char)) (cs : List Char) : List Span :=
  sentsOfToks cs (tokenizeChars ab cs)

/-- Modelled from the spec: the library entry point `sentenize`. -/
def sentenize (s : String) : List Span := sentenizeChars defaultAbbrevs s.data

/-- Modelled from the spec: `sentenize` in the error-reporting presentation;
it runs the error-reporting tokenizer and then the (total) grouping pass. -/
def sentenizeE (s : String) : Except String (List Span) :=
  (tokenizeE s).map fun toks => (sentGroups s.data toks.length toks []).map groupSpan

/-! ## Substring extraction -/

/-- The characters of `cs` between offsets `a` (inclusive) and `b`
(exclusive). -/
def sliceChars (cs : List Char) (a b : Nat) : List Char := (cs.drop a).take (b - a)

/-- The substring of `s` denoted by a span. -/
def spanText (s : String) (sp : Span) : String := String.mk (sliceChars s.data sp.start sp.stop)

/-- The substring of `s` denoted by a token. -/
def tokenText (s : String) (t : Token) : String := spanText s t.span

/-! ## List helpers -/

theorem takeWhile_length_le (p : α → Bool) (l : List α) :
    (l.takeWhile p).length ≤ l.length := by
  induction l with
  | nil => simp
  | cons a l ih =>
    rw [List.takeWhile_cons]
    split
    · simpa using ih
    · simp

theorem dropWhile_length_le (p : α → Bool) (l : List α) :
    (l.dropWhile p).length ≤ l.length := by
  induction l with
  | nil => simp
  | cons a l ih =>
    rw [List.dropWhile_cons]
    split
    · exact Nat.le_succ_of_le ih
    · simp

theorem take_takeWhile_length (p : α → Bool) (l : List α) :
    l.take ((l.takeWhile p).length) = l.takeWhile p := by
  induction l with
  | nil => simp
  | cons a l ih =>
    rw [List.takeWhile_cons]
    split
    · simpa using ih
    · simp

theorem dropWhile_eq_self_of_forall {p : α → Bool} {l : List α}
    (h : ∀ x ∈ l, p x = false) : l.dropWhile p = l := by
  cases l with
  | nil => rfl
  | cons a l =>
    rw [List.dropWhile_cons]
    simp [h a (List.mem_cons_self a l)]

theorem map_congr_mem {f g : α → β} :
    ∀ {l : List α}, (∀ x ∈ l, f x = g x) → l.map f = l.map g
  | [], _ => rfl
  | a :: l, h => by
    rw [List.map_cons, List.map_cons, h a (List.mem_cons_self a l),
      map_congr_mem fun x hx => h x (List.mem_cons_of_mem a hx)]

/-! ## CharClassifier facts -/

theorem classify_space {c : Char} (h : classify c = .space) : pyIsSpace c = true := by
  unfold classify at h
  split_ifs at h
  all_goals simp_all

theorem classify_digit {c : Char} (h : classify c = .digit) : c.isDigit = true := by
  unfold classify at h
  split_ifs at h
  all_goals simp_all

theorem classify_letter {c : Char} (h : classify c = .letter) : c.isAlpha = true := by
  unfold classify at h
  split_ifs at h
  all_goals simp_all

theorem classify_terminal {c : Char} (h : classify c = .terminalPunct) :
    isTerminalChar c = true := by
  unfold classify at h
  split_ifs at h
  all_goals simp_all

theorem isAlpha_bounds {c : Char} (h : c.isAlpha = true) :
    (0x41 ≤ c.toNat ∧ c.toNat ≤ 0x5a) ∨ (0x61 ≤ c.toNat ∧ c.toNat ≤ 0x7a) := by
  simp only [Char.isAlpha, Char.isUpper, Char.isLower, Bool.or_eq_true, Bool.and_eq_true,
    decide_eq_true_eq] at h
  rcases h with ⟨h1, h2⟩ | ⟨h1, h2⟩
  · exact Or.inl ⟨h1, h2⟩
  · exact Or.inr ⟨h1, h2⟩

theorem isDigit_bounds {c : Char} (h : c.isDigit = true) :
    0x30 ≤ c.toNat ∧ c.toNat ≤ 0x39 := by
  simp only [Char.isDigit, Bool.and_eq_true, decide_eq_true_eq] at h
  exact h

/-- No Python whitespace character is an ASCII letter. -/
theorem pyIsSpace_not_alpha {c : Char} (hs : pyIsSpace c = true) : c.isAlpha = false := by
  by_contra hb
  rw [Bool.not_eq_false] at hb
  have ha := isAlpha_bounds hb
  simp only [pyIsSpace, Bool.or_eq_true, Bool.and_eq_true, decide_eq_true_eq] at hs
  omega

/-- No Python whitespace character is an ASCII digit. -/
theorem pyIsSpace_not_digit {c : Char} (hs : pyIsSpace c = true) : c.isDigit = false := by
  by_contra hb
  rw [Bool.not_eq_false] at hb
  have ha := isDigit_bounds hb
  simp only [pyIsSpace, Bool.or_eq_true, Bool.and_eq_true, decide_eq_true_eq] at hs
  omega

theorem classify_of_space {c : Char} (h : pyIsSpace c = true) : classify c = .space := by
  simp [classify, pyIsSpace_not_alpha h, pyIsSpace_not_digit h, h]

/-! ## matchRule facts -/

theorem spaceRun_cons_of_space {c : Char} {rest : List Char} (h : pyIsSpace c = true) :
    spaceRun (c :: rest) = spaceRun rest + 1 := by
  simp [spaceRun, List.takeWhile_cons, h]

theorem digitRun_cons_of_digit {c : Char} {rest : List Char} (h : c.isDigit = true) :
    digitRun (c :: rest) = digitRun rest + 1 := by
  simp [digitRun, List.takeWhile_cons, h]

theorem letterRun_cons_of_letter {c : Char} {rest : List Char} (h : c.isAlpha = true) :
    letterRun (c :: rest) = letterRun rest + 1 := by
  simp [letterRun, List.takeWhile_cons, h]

theorem spaceRun_le (cs : List Char) : spaceRun cs ≤ cs.length :=
  takeWhile_length_le _ cs

theorem digitRun_le (cs : List Char) : digitRun cs ≤ cs.length :=
  takeWhile_length_le _ cs

theorem letterRun_le (cs : List Char) : letterRun cs ≤ cs.length :=
  takeWhile_length_le _ cs

theorem matchRule_isSome (ab : List (List Char)) (c : Char) (rest : List Char) :
    (matchRule ab (c :: rest)).isSome = true := by
  simp only [matchRule]
  repeat' split
  all_goals simp

theorem matchRule_eq_none {ab : List (List Char)} {cs : List Char}
    (h : matchRule ab cs = none) : cs = [] := by
  cases cs with
  | nil => rfl
  | cons c rest =>
    have := matchRule_isSome ab c rest
    rw [h] at this
    simp at this

theorem matchRule_bounds {ab : List (List Char)} {cs : List Char} {k : Nat}
    {r : Option TokKind} (h : matchRule ab cs = some (k, r)) :
    1 ≤ k ∧ k ≤ cs.length := by
  cases cs with
  | nil => simp [matchRule] at h
  | cons c rest =>
    simp only [matchRule] at h
    split at h
    case h_1 heq =>
      have hsp := classify_space heq
      simp only [Option.some.injEq, Prod.mk.injEq] at h
      obtain ⟨rfl, -⟩ := h
      have h1 := @spaceRun_cons_of_space c rest hsp
      have h2 := spaceRun_le rest
      simp only [List.length_cons]
      omega
    case h_2 heq =>
      have hdg := classify_digit heq
      have hpos := @digitRun_cons_of_digit c rest hdg
      have hle := digitRun_le (c :: rest)
      split at h
      case h_1 sep c2 tl heq2 =>
        have hlen2 : (c :: rest).length - digitRun (c :: rest) = tl.length + 2 := by
          rw [← List.length_drop, heq2]
          simp
        split at h
        all_goals
          simp only [Option.some.injEq, Prod.mk.injEq] at h
          obtain ⟨rfl, -⟩ := h
        · have h3 : digitRun ((c :: rest).drop (digitRun (c :: rest) + 2)) ≤
              (c :: rest).length - (digitRun (c :: rest) + 2) := by
            rw [← List.length_drop]
            exact digitRun_le _
          omega
        · omega
      case h_2 heq2 =>
        simp only [Option.some.injEq, Prod.mk.injEq] at h
        obtain ⟨rfl, -⟩ := h
        omega
    case h_3 heq =>
      have hlt := classify_letter heq
      have hpos := @letterRun_cons_of_letter c rest hlt
      have hle := letterRun_le (c :: rest)
      split at h
      case h_1 tl heq2 =>
        have hlen2 : (c :: rest).length - letterRun (c :: rest) = tl.length + 1 := by
          rw [← List.length_drop, heq2]
          simp
        split at h
        all_goals
          simp only [Option.some.injEq, Prod.mk.injEq] at h
          obtain ⟨rfl, -⟩ := h
        · omega
        · omega
      case h_2 heq2 =>
        simp only [Option.some.injEq, Prod.mk.injEq] at h
        obtain ⟨rfl, -⟩ := h
        omega
    all_goals
      simp only [Option.some.injEq, Prod.mk.injEq] at h
      obtain ⟨rfl, -⟩ := h
      simp

theorem matchRule_skip {ab : List (List Char)} {cs : List Char} {k : Nat}
    (h : matchRule ab cs = some (k, none)) :
    k = spaceRun cs ∧ ∀ c ∈ cs.take k, pyIsSpace c = true := by
  cases cs with
  | nil => simp [matchRule] at h
  | cons c rest =>
    simp only [matchRule] at h
    split at h
    case h_1 heq =>
      simp only [Option.some.injEq, Prod.mk.injEq] at h
      obtain ⟨rfl, -⟩ := h
      refine ⟨rfl, ?_⟩
      intro x hx
      rw [spaceRun, take_takeWhile_length] at hx
      exact List.mem_takeWhile_imp hx
    case h_2 =>
      split at h
      · split at h <;> simp at h
      · simp at h
    case h_3 =>
      split at h
      · split at h <;> simp at h
      · simp at h
    all_goals simp at h

theorem matchRule_terminal_char {ab : List (List Char)} {c : Char} {rest : List Char}
    {k : Nat} (h : matchRule ab (c :: rest) = some (k, some .terminal)) :
    isTerminalChar c = true := by
  simp only [matchRule] at h
  split at h
  case h_4 heq => exact classify_terminal heq
  case h_2 =>
    split at h
    · split at h <;> simp at h
    · simp at h
  case h_3 =>
    split at h
    · split at h <;> simp at h
    · simp at h
  all_goals simp at h

/-! ## Span well-formedness: start < stop ≤ hi, sorted and disjoint -/

/-- All spans of the list lie in `[lo, hi)`, are non-degenerate, and follow
one another without overlapping. -/
def spansOk (lo hi : Nat) : List Span → Prop
  | [] => True
  | s :: rest => lo ≤ s.start ∧ s.start < s.stop ∧ s.stop ≤ hi ∧ spansOk s.stop hi rest

theorem spansOk_mono_lo {lo lo' hi : Nat} {l : List Span} (h : lo' ≤ lo)
    (hs : spansOk lo hi l) : spansOk lo' hi l := by
  cases l with
  | nil => trivial
  | cons s rest => exact ⟨Nat.le_trans h hs.1, hs.2.1, hs.2.2.1, hs.2.2.2⟩

theorem spansOk_bounds {hi : Nat} :
    ∀ {l : List Span} {lo : Nat}, spansOk lo hi l →
    ∀ s ∈ l, lo ≤ s.start ∧ s.start < s.stop ∧ s.stop ≤ hi := by
  intro l
  induction l with
  | nil =>
    intro lo _ s hs
    cases hs
  | cons a rest ih =>
    intro lo h s hs
    obtain ⟨h1, h2, h3, h4⟩ := h
    rcases List.mem_cons.mp hs with rfl | hs
    · exact ⟨h1, h2, h3⟩
    · obtain ⟨g1, g2, g3⟩ := ih h4 s hs
      exact ⟨by omega, g2, g3⟩

theorem spansOk_pairwise {hi : Nat} :
    ∀ {l : List Span} {lo : Nat}, spansOk lo hi l →
    l.Pairwise (fun a b => a.stop ≤ b.start) := by
  intro l
  induction l with
  | nil =>
    intro lo _
    exact List.Pairwise.nil
  | cons a rest ih =>
    intro lo h
    refine List.Pairwise.cons ?_ (ih h.2.2.2)
    intro b hb
    exact (spansOk_bounds h.2.2.2 b hb).1

/-- The scan loop only emits well-formed, strictly advancing spans between the
cursor and the end of the remaining input. -/
theorem tokLoop_spansOk (ab : List (List Char)) :
    ∀ (fuel : Nat) (cs : List Char) (pos : Nat), cs.length ≤ fuel →
    spansOk pos (pos + cs.length) ((tokLoop ab fuel cs pos).map Token.span) := by
  intro fuel
  induction fuel with
  | zero =>
    intro cs pos _
    simp only [tokLoop, List.map_nil]
    trivial
  | succ fuel ih =>
    intro cs pos h
    rw [tokLoop]
    cases hm : matchRule ab cs with
    | none =>
      simp only [List.map_nil]
      trivial
    | some kr =>
      obtain ⟨k, r⟩ := kr
      obtain ⟨hk1, hk2⟩ := matchRule_bounds hm
      have hlen : (cs.drop k).length ≤ fuel := by
        rw [List.length_drop]
        omega
      have harith : pos + k + (cs.drop k).length = pos + cs.length := by
        rw [List.length_drop]
        omega
      cases r with
      | none =>
        have hrec := ih (cs.drop k) (pos + k) hlen
        rw [harith] at hrec
        exact spansOk_mono_lo (Nat.le_add_right pos k) hrec
      | some kind =>
        have hrec := ih (cs.drop k) (pos + k) hlen
        rw [harith] at hrec
        refine ⟨Nat.le_refl _, ?_, ?_, hrec⟩
        · show pos < pos + k
          omega
        · show pos + k ≤ pos + cs.length
          omega

/-- The tokenizer's spans are well-formed and non-overlapping. -/
theorem tokenize_spansOk (s : String) :
    spansOk 0 s.data.length ((tokenize s).map Token.span) := by
  have := tokLoop_spansOk defaultAbbrevs s.data.length s.data 0 (Nat.le_refl _)
  simpa using this

/-! ## Round-trip reconstruction of the text from the token spans -/

theorem sliceChars_self (cs : List Char) (a : Nat) : sliceChars cs a a = by exact [] := by
  simp [sliceChars]

theorem sliceChars_add (cs : List Char) (a k : Nat) :
    sliceChars cs a (a + k) = (cs.drop a).take k := by
  simp [sliceChars]

theorem sliceChars_to_end (cs : List Char) (a : Nat) :
    sliceChars cs a cs.length = cs.drop a := by
  unfold sliceChars
  rw [← List.length_drop a cs]
  exact List.take_length _

theorem sliceChars_split (cs : List Char) {a m b : Nat} (h1 : a ≤ m) (h2 : m ≤ b) :
    sliceChars cs a m ++ sliceChars cs m b = sliceChars cs a b := by
  unfold sliceChars
  have hb : b - a = (m - a) + (b - m) := by omega
  rw [hb, List.take_add, List.drop_drop]
  have hm : a + (m - a) = m := by omega
  rw [hm]

/-- A lower bound for the first position the token list can mention: the
start of its first token, or the end of the text when it is empty. -/
def headStartLB (m : Nat) (full : List Char) : List Token → Prop
  | [] => m ≤ full.length
  | t :: _ => m ≤ t.span.start

theorem headStartLB_of {m hi : Nat} {full : List Char} {ts : List Token}
    (hlen : m ≤ full.length) (hs : spansOk m hi (ts.map Token.span)) :
    headStartLB m full ts := by
  cases ts with
  | nil => exact hlen
  | cons t rest => exact hs.1

/-- The text reassembled from a token list: the gap before each token, the
token's own characters, and the remainder after the last token. -/
def reconstruct (full : List Char) (pos : Nat) : List Token → List Char
  | [] => sliceChars full pos full.length
  | t :: ts =>
    sliceChars full pos t.span.start ++ sliceChars full t.span.start t.span.stop ++
      reconstruct full t.span.stop ts

theorem reconstruct_shift (full : List Char) {pos m : Nat} (ts : List Token)
    (hpm : pos ≤ m) (hh : headStartLB m full ts) :
    reconstruct full pos ts = sliceChars full pos m ++ reconstruct full m ts := by
  cases ts with
  | nil =>
    show sliceChars full pos full.length = _
    rw [← sliceChars_split full hpm hh]
    rfl
  | cons t ts' =>
    simp only [reconstruct]
    rw [← sliceChars_split full hpm hh]
    simp [List.append_assoc]

/-- Every gap the reconstruction inserts around the tokens consists of
whitespace only. -/
def gapsWhite (full : List Char) (pos : Nat) : List Token → Prop
  | [] => ∀ c ∈ sliceChars full pos full.length, pyIsSpace c = true
  | t :: ts =>
    (∀ c ∈ sliceChars full pos t.span.start, pyIsSpace c = true) ∧
      gapsWhite full t.span.stop ts

theorem gapsWhite_shift (full : List Char) {pos m : Nat} (ts : List Token)
    (hpm : pos ≤ m) (hh : headStartLB m full ts)
    (hw : ∀ c ∈ sliceChars full pos m, pyIsSpace c = true)
    (h : gapsWhite full m ts) : gapsWhite full pos ts := by
  cases ts with
  | nil =>
    intro c hc
    rw [← sliceChars_split full hpm hh] at hc
    rcases List.mem_append.mp hc with hc | hc
    · exact hw c hc
    · exact h c hc
  | cons t ts' =>
    refine ⟨?_, h.2⟩
    intro c hc
    rw [← sliceChars_split full hpm hh] at hc
    rcases List.mem_append.mp hc with hc | hc
    · exact hw c hc
    · exact h.1 c hc

/-- The scan loop, run on the suffix of `full` that starts at `pos`, emits
tokens whose spans tile that suffix up to whitespace gaps: reassembling them
returns exactly the suffix, and every gap is whitespace. -/
theorem tokLoop_reconstruct (ab : List (List Char)) :
    ∀ (fuel : Nat) (cs full : List Char) (pos : Nat), cs.length ≤ fuel →
    full.drop pos = cs → pos ≤ full.length →
    reconstruct full pos (tokLoop ab fuel cs pos) = cs ∧
      gapsWhite full pos (tokLoop ab fuel cs pos) := by
  intro fuel
  induction fuel with
  | zero =>
    intro cs full pos hf hdrop hpos
    have hcs : cs = [] := List.length_eq_zero.mp (Nat.le_zero.mp hf)
    subst hcs
    have hpl : pos + (0 : Nat) = full.length := by
      have := congrArg List.length hdrop
      rw [List.length_drop] at this
      simp at this
      omega
    constructor
    · show sliceChars full pos full.length = []
      rw [sliceChars_to_end, hdrop]
    · intro c hc
      rw [sliceChars_to_end, hdrop] at hc
      cases hc
  | succ fuel ih =>
    intro cs full pos hf hdrop hpos
    have hpl : pos + cs.length = full.length := by
      have := congrArg List.length hdrop
      rw [List.length_drop] at this
      omega
    rw [tokLoop]
    cases hm : matchRule ab cs with
    | none =>
      have hcs := matchRule_eq_none hm
      subst hcs
      constructor
      · show sliceChars full pos full.length = []
        rw [sliceChars_to_end, hdrop]
      · intro c hc
        rw [sliceChars_to_end, hdrop] at hc
        cases hc
    | some kr =>
      obtain ⟨k, r⟩ := kr
      obtain ⟨hk1, hk2⟩ := matchRule_bounds hm
      have hlen : (cs.drop k).length ≤ fuel := by
        rw [List.length_drop]
        omega
      have hdrop' : full.drop (pos + k) = cs.drop k := by
        rw [← List.drop_drop, hdrop]
      have hpos' : pos + k ≤ full.length := by omega
      obtain ⟨ihr, ihw⟩ := ih (cs.drop k) full (pos + k) hlen hdrop' hpos'
      have hslice : sliceChars full pos (pos + k) = cs.take k := by
        rw [sliceChars_add, hdrop]
      cases r with
      | none =>
        have hso := tokLoop_spansOk ab fuel (cs.drop k) (pos + k) hlen
        have hh := headStartLB_of hpos' hso
        obtain ⟨hsk, hwk⟩ := matchRule_skip hm
        have hwhite : ∀ c ∈ sliceChars full pos (pos + k), pyIsSpace c = true := by
          rw [hslice]
          exact hwk
        constructor
        · rw [reconstruct_shift full _ (Nat.le_add_right pos k) hh, ihr, hslice,
            List.take_append_drop]
        · exact gapsWhite_shift full _ (Nat.le_add_right pos k) hh hwhite ihw
      | some kind =>
        constructor
        · show sliceChars full pos pos ++ sliceChars full pos (pos + k) ++ _ = cs
          rw [sliceChars_self, hslice, ihr, List.nil_append, List.take_append_drop]
        · refine ⟨?_, ihw⟩
          intro c hc
          rw [sliceChars_self] at hc
          cases hc

/-- The full round trip for `tokenize`. -/
theorem tokenize_reconstruct (s : String) :
    reconstruct s.data 0 (tokenize s) = s.data ∧ gapsWhite s.data 0 (tokenize s) :=
  tokLoop_reconstruct defaultAbbrevs s.data.length s.data s.data 0 (Nat.le_refl _)
    rfl (Nat.zero_le _)

/-! ## The sentence grouping partitions the token sequence -/

theorem sentGroups_nil (cs : List Char) (fuel : Nat) (buf : List Token) :
    sentGroups cs fuel [] buf = if buf.isEmpty then [] else [buf] := by
  cases fuel <;> rfl

theorem sentGroups_cons_of_term_nil {t : Token} (cs : List Char) (fuel : Nat)
    (rest buf : List Token) (hk : t.kind = .terminal)
    (hr : rest.dropWhile isQuoteTok = []) :
    sentGroups cs (fuel + 1) (t :: rest) buf =
      [buf ++ t :: rest.takeWhile isQuoteTok] := by
  simp only [sentGroups, hk, hr]

theorem sentGroups_cons_of_term_cons {t u : Token} {rest2 : List Token} (cs : List Char)
    (fuel : Nat) (rest buf : List Token) (hk : t.kind = .terminal)
    (hr : rest.dropWhile isQuoteTok = u :: rest2) :
    sentGroups cs (fuel + 1) (t :: rest) buf =
      if upperAt cs u.span.start then
        (buf ++ t :: rest.takeWhile isQuoteTok) :: sentGroups cs fuel (u :: rest2) []
      else sentGroups cs fuel (u :: rest2) (buf ++ t :: rest.takeWhile isQuoteTok) := by
  simp only [sentGroups, hk, hr]

theorem sentGroups_cons_of_nonterm {t : Token} (cs : List Char) (fuel : Nat)
    (rest buf : List Token) (hk : t.kind ≠ .terminal) :
    sentGroups cs (fuel + 1) (t :: rest) buf = sentGroups cs fuel rest (buf ++ [t]) := by
  cases hk2 : t.kind
  case terminal => exact absurd hk2 hk
  all_goals simp only [sentGroups, hk2]

/-- Concatenating the sentence groups gives back the pending buffer followed
by the remaining tokens: the groups partition the token sequence with no gap
and no overlap. -/
theorem sentGroups_flatten (cs : List Char) :
    ∀ (fuel : Nat) (toks buf : List Token), toks.length ≤ fuel →
    (sentGroups cs fuel toks buf).flatten = buf ++ toks := by
  intro fuel
  induction fuel with
  | zero =>
    intro toks buf h
    have htoks : toks = [] := List.length_eq_zero.mp (Nat.le_zero.mp h)
    subst htoks
    rw [sentGroups_nil]
    cases buf <;> simp
  | succ fuel ih =>
    intro toks buf h
    cases toks with
    | nil =>
      rw [sentGroups_nil]
      cases buf <;> simp
    | cons t rest =>
      simp only [List.length_cons] at h
      have hrest : rest.length ≤ fuel := by omega
      have hq := List.takeWhile_append_dropWhile isQuoteTok rest
      by_cases hk : t.kind = .terminal
      · cases hr : rest.dropWhile isQuoteTok with
        | nil =>
          rw [hr] at hq
          simp only [List.append_nil] at hq
          rw [sentGroups_cons_of_term_nil cs fuel rest buf hk hr]
          simp [hq]
        | cons u rest2 =>
          rw [hr] at hq
          have hlen2 : (u :: rest2).length ≤ fuel := by
            have h1 := dropWhile_length_le isQuoteTok rest
            rw [hr] at h1
            omega
          rw [sentGroups_cons_of_term_cons cs fuel rest buf hk hr]
          split
          · simp only [List.flatten_cons, ih (u :: rest2) [] hlen2, List.nil_append]
            rw [List.append_assoc, List.cons_append, hq]
          · rw [ih (u :: rest2) _ hlen2, List.append_assoc, List.cons_append, hq]
      · rw [sentGroups_cons_of_nonterm cs fuel rest buf hk,
          ih rest (buf ++ [t]) hrest, List.append_assoc, List.singleton_append]

/-- Every group emitted by the sentence grouping loop is non-empty. -/
theorem sentGroups_ne_nil (cs : List Char) :
    ∀ (fuel : Nat) (toks buf g : List Token), g ∈ sentGroups cs fuel toks buf → g ≠ [] := by
  intro fuel
  induction fuel with
  | zero =>
    intro toks buf g hg
    cases toks with
    | nil =>
      rw [sentGroups_nil] at hg
      cases hb : buf with
      | nil => simp [hb] at hg
      | cons x xs =>
        rw [hb] at hg
        simp at hg
        simp [hg]
    | cons t rest =>
      simp only [sentGroups, List.mem_singleton] at hg
      simp [hg]
  | succ fuel ih =>
    intro toks buf g hg
    cases toks with
    | nil =>
      rw [sentGroups_nil] at hg
      cases hb : buf with
      | nil => simp [hb] at hg
      | cons x xs =>
        rw [hb] at hg
        simp at hg
        simp [hg]
    | cons t rest =>
      by_cases hk : t.kind = .terminal
      · cases hr : rest.dropWhile isQuoteTok with
        | nil =>
          rw [sentGroups_cons_of_term_nil cs fuel rest buf hk hr] at hg
          simp only [List.mem_singleton] at hg
          simp [hg]
        | cons u rest2 =>
          rw [sentGroups_cons_of_term_cons cs fuel rest buf hk hr] at hg
          split at hg
          · rcases List.mem_cons.mp hg with rfl | hg
            · simp
            · exact ih (u :: rest2) [] g hg
          · exact ih (u :: rest2) _ g hg
      · rw [sentGroups_cons_of_nonterm cs fuel rest buf hk] at hg
        exact ih rest (buf ++ [t]) g hg

/-! ## The span of a non-empty token group -/

/-- A non-empty group's span starts at its first token, ends after its last
token, is well-formed, and covers every token of the group; the spans that
follow the group stay to its right. -/
theorem groupSpan_bounds :
    ∀ (g' : List Token) (t : Token) (lo hi : Nat) (rest : List Span),
    spansOk lo hi ((t :: g').map Token.span ++ rest) →
    (groupSpan (t :: g')).start = t.span.start ∧
    (groupSpan (t :: g')).start < (groupSpan (t :: g')).stop ∧
    (groupSpan (t :: g')).stop ≤ hi ∧
    lo ≤ t.span.start ∧
    spansOk (groupSpan (t :: g')).stop hi rest ∧
    (∀ u ∈ t :: g', (groupSpan (t :: g')).start ≤ u.span.start ∧
      u.span.stop ≤ (groupSpan (t :: g')).stop) := by
  intro g'
  induction g' with
  | nil =>
    intro t lo hi rest h
    have h' : lo ≤ t.span.start ∧ t.span.start < t.span.stop ∧ t.span.stop ≤ hi ∧
        spansOk t.span.stop hi rest := h
    obtain ⟨h1, h2, h3, h4⟩ := h'
    refine ⟨rfl, h2, h3, h1, h4, ?_⟩
    intro u hu
    rw [List.mem_singleton] at hu
    subst hu
    exact ⟨Nat.le_refl _, Nat.le_refl _⟩
  | cons u g'' ih =>
    intro t lo hi rest h
    have h' : lo ≤ t.span.start ∧ t.span.start < t.span.stop ∧ t.span.stop ≤ hi ∧
        spansOk t.span.stop hi ((u :: g'').map Token.span ++ rest) := h
    obtain ⟨h1, h2, h3, h4⟩ := h'
    obtain ⟨g1, g2, g3, g4, g5, g6⟩ := ih u t.span.stop hi rest h4
    have hstop : (groupSpan (t :: u :: g'')).stop = (groupSpan (u :: g'')).stop := rfl
    have hstart : (groupSpan (t :: u :: g'')).start = t.span.start := rfl
    refine ⟨rfl, ?_, ?_, h1, ?_, ?_⟩
    · rw [hstart, hstop]
      omega
    · rw [hstop]
      exact g3
    · exact g5
    · intro v hv
      rw [hstart, hstop]
      rcases List.mem_cons.mp hv with rfl | hv
      · refine ⟨Nat.le_refl _, ?_⟩
        omega
      · obtain ⟨c1, c2⟩ := g6 v hv
        exact ⟨by omega, c2⟩

/-- Mapping `groupSpan` over a partition of a well-formed span list yields a
well-formed span list, and each group's span covers its tokens. -/
theorem groups_spansOk_cover :
    ∀ (gs : List (List Token)) (lo hi : Nat),
    (∀ g ∈ gs, g ≠ []) → spansOk lo hi (gs.flatten.map Token.span) →
    spansOk lo hi (gs.map groupSpan) ∧
    ∀ g ∈ gs, ∀ u ∈ g, (groupSpan g).start ≤ u.span.start ∧
      u.span.stop ≤ (groupSpan g).stop := by
  intro gs
  induction gs with
  | nil =>
    intro lo hi _ _
    refine ⟨trivial, ?_⟩
    intro g hg
    cases hg
  | cons g gs ih =>
    intro lo hi hne h
    cases hg : g with
    | nil => exact absurd hg (hne g (List.mem_cons_self g gs))
    | cons t g' =>
      subst hg
      rw [List.flatten_cons, List.map_append] at h
      obtain ⟨b1, b2, b3, b4, b5, b6⟩ :=
        groupSpan_bounds g' t lo hi (gs.flatten.map Token.span) h
      obtain ⟨ih1, ih2⟩ :=
        ih (groupSpan (t :: g')).stop hi (fun g2 hg2 => hne g2 (List.mem_cons_of_mem _ hg2)) b5
      refine ⟨⟨?_, b2, b3, ih1⟩, ?_⟩
      · rw [b1]
        exact b4
      · intro g2 hg2 u hu
        rcases List.mem_cons.mp hg2 with rfl | hg2
        · exact b6 u hu
        · exact ih2 g2 hg2 u hu

/-! ## The error-reporting scan never errors -/

theorem tokLoopE_ok (ab : List (List Char)) :
    ∀ (fuel : Nat) (cs : List Char) (pos : Nat),
    tokLoopE ab fuel cs pos = .ok (tokLoop ab fuel cs pos) := by
  intro fuel
  induction fuel with
  | zero => intro cs pos; rfl
  | succ fuel ih =>
    intro cs pos
    cases hm : matchRule ab cs with
    | none =>
      have hcs := matchRule_eq_none hm
      subst hcs
      rfl
    | some kr =>
      obtain ⟨k, r⟩ := kr
      cases r with
      | none =>
        simp only [tokLoopE, tokLoop, hm]
        exact ih (cs.drop k) (pos + k)
      | some kind =>
        simp only [tokLoopE, tokLoop, hm, ih (cs.drop k) (pos + k)]
        rfl

/-! ## Whitespace-only input produces no token -/

theorem takeWhile_eq_self_of_forall {p : α → Bool} {l : List α}
    (h : ∀ x ∈ l, p x = true) : l.takeWhile p = l := by
  induction l with
  | nil => rfl
  | cons a l ih =>
    rw [List.takeWhile_cons, if_pos (h a (List.mem_cons_self a l)),
      ih fun x hx => h x (List.mem_cons_of_mem a hx)]

theorem tokLoop_all_space (ab : List (List Char)) :
    ∀ (fuel : Nat) (cs : List Char) (pos : Nat),
    (∀ c ∈ cs, pyIsSpace c = true) → tokLoop ab fuel cs pos = [] := by
  intro fuel
  induction fuel with
  | zero => intro cs pos _; rfl
  | succ fuel ih =>
    intro cs pos hw
    cases cs with
    | nil => simp [tokLoop, matchRule]
    | cons c rest =>
      have hsp : pyIsSpace c = true := hw c (List.mem_cons_self c rest)
      have hm : matchRule ab (c :: rest) = some (spaceRun (c :: rest), none) := by
        simp only [matchRule, classify_of_space hsp]
      have hlen : spaceRun (c :: rest) = (c :: rest).length := by
        rw [spaceRun, takeWhile_eq_self_of_forall hw]
      simp only [tokLoop, hm, hlen, List.drop_length]
      exact ih [] _ fun c hc => absurd hc (List.not_mem_nil c)

/-! ## Texts without terminal punctuation -/

theorem tokLoop_no_terminal (ab : List (List Char)) :
    ∀ (fuel : Nat) (cs : List Char) (pos : Nat),
    (∀ c ∈ cs, isTerminalChar c = false) →
    ∀ t ∈ tokLoop ab fuel cs pos, t.kind ≠ .terminal := by
  intro fuel
  induction fuel with
  | zero =>
    intro cs pos _ t ht
    simp [tokLoop] at ht
  | succ fuel ih =>
    intro cs pos hnt t ht
    cases hm : matchRule ab cs with
    | none =>
      simp only [tokLoop, hm] at ht
      simp at ht
    | some kr =>
      obtain ⟨k, r⟩ := kr
      have hsub : ∀ c ∈ cs.drop k, isTerminalChar c = false :=
        fun c hc => hnt c (List.drop_subset k cs hc)
      cases r with
      | none =>
        simp only [tokLoop, hm] at ht
        exact ih (cs.drop k) (pos + k) hsub t ht
      | some kind =>
        simp only [tokLoop, hm] at ht
        rcases List.mem_cons.mp ht with rfl | ht
        · intro hkind
          have hkind' : kind = .terminal := hkind
          subst hkind'
          cases cs with
          | nil => simp [matchRule] at hm
          | cons c rest =>
            have hterm := matchRule_terminal_char hm
            rw [hnt c (List.mem_cons_self c rest)] at hterm
            cases hterm
        · exact ih (cs.drop k) (pos + k) hsub t ht

theorem sentGroups_no_terminal (cs : List Char) :
    ∀ (fuel : Nat) (toks buf : List Token), toks.length ≤ fuel →
    (∀ t ∈ toks, t.kind ≠ .terminal) → buf ++ toks ≠ [] →
    sentGroups cs fuel toks buf = [buf ++ toks] := by
  intro fuel
  induction fuel with
  | zero =>
    intro toks buf h hnt hne
    have htoks : toks = [] := List.length_eq_zero.mp (Nat.le_zero.mp h)
    subst htoks
    rw [List.append_nil] at hne ⊢
    rw [sentGroups_nil, if_neg]
    simpa using hne
  | succ fuel ih =>
    intro toks buf h hnt hne
    cases toks with
    | nil =>
      rw [List.append_nil] at hne ⊢
      rw [sentGroups_nil, if_neg]
      simpa using hne
    | cons t rest =>
      simp only [List.length_cons] at h
      have hk : t.kind ≠ .terminal := hnt t (List.mem_cons_self t rest)
      rw [sentGroups_cons_of_nonterm cs fuel rest buf hk,
        ih rest (buf ++ [t]) (by omega)
          (fun u hu => hnt u (List.mem_cons_of_mem t hu)) (by simp),
        List.append_assoc, List.singleton_append]

/-! ## The scan as a relation: tokenize realises it, and it is deterministic -/

/-- Modelled from the spec: one complete left-to-right scan of the
TokenRuleEngine, presented as a relation between the remaining input, the
cursor position, and the emitted tokens.  Each call rescans from the start
with no state shared between calls, so a call is exactly a derivation of this
relation from the initial state. -/
inductive TokProduces (ab : List (List Char)) : List Char → Nat → List Token → Prop
  | done (pos : Nat) : TokProduces ab [] pos []
  | emit {cs : List Char} {pos k : Nat} {kind : TokKind} {ts : List Token} :
      matchRule ab cs = some (k, some kind) →
      TokProduces ab (cs.drop k) (pos + k) ts →
      TokProduces ab cs pos (⟨⟨pos, pos + k⟩, kind⟩ :: ts)
  | skip {cs : List Char} {pos k : Nat} {ts : List Token} :
      matchRule ab cs = some (k, none) →
      TokProduces ab (cs.drop k) (pos + k) ts →
      TokProduces ab cs pos ts

theorem tokProduces_det {ab : List (List Char)} {cs : List Char} {pos : Nat}
    {ts ts' : List Token} (h : TokProduces ab cs pos ts)
    (h' : TokProduces ab cs pos ts') : ts = ts' := by
  induction h generalizing ts' with
  | done pos =>
    cases h' with
    | done => rfl
    | emit hm _ => simp [matchRule] at hm
    | skip hm _ => simp [matchRule] at hm
  | emit hm hrec ih =>
    cases h' with
    | done => simp [matchRule] at hm
    | emit hm' hrec' =>
      rw [hm] at hm'
      simp only [Option.some.injEq, Prod.mk.injEq] at hm'
      obtain ⟨rfl, rfl⟩ := hm'
      rw [ih hrec']
    | skip hm' hrec' =>
      rw [hm] at hm'
      simp at hm'
  | skip hm hrec ih =>
    cases h' with
    | done => simp [matchRule] at hm
    | emit hm' hrec' =>
      rw [hm] at hm'
      simp at hm'
    | skip hm' hrec' =>
      rw [hm] at hm'
      simp only [Option.some.injEq, Prod.mk.injEq] at hm'
      obtain ⟨rfl, -⟩ := hm'
      exact ih hrec'

theorem tokLoop_produces (ab : List (List Char)) :
    ∀ (fuel : Nat) (cs : List Char) (pos : Nat), cs.length ≤ fuel →
    TokProduces ab cs pos (tokLoop ab fuel cs pos) := by
  intro fuel
  induction fuel with
  | zero =>
    intro cs pos h
    have hcs : cs = [] := List.length_eq_zero.mp (Nat.le_zero.mp h)
    subst hcs
    exact TokProduces.done pos
  | succ fuel ih =>
    intro cs pos h
    cases hm : matchRule ab cs with
    | none =>
      have hcs := matchRule_eq_none hm
      subst hcs
      have heq : tokLoop ab (fuel + 1) [] pos = [] := by simp [tokLoop, matchRule]
      rw [heq]
      exact TokProduces.done pos
    | some kr =>
      obtain ⟨k, r⟩ := kr
      obtain ⟨hk1, hk2⟩ := matchRule_bounds hm
      have hlen : (cs.drop k).length ≤ fuel := by
        rw [List.length_drop]
        omega
      have hrec := ih (cs.drop k) (pos + k) hlen
      cases r with
      | none =>
        have heq : tokLoop ab (fuel + 1) cs pos = tokLoop ab fuel (cs.drop k) (pos + k) := by
          simp [tokLoop, hm]
        rw [heq]
        exact TokProduces.skip hm hrec
      | some kind =>
        have heq : tokLoop ab (fuel + 1) cs pos =
            ⟨⟨pos, pos + k⟩, kind⟩ :: tokLoop ab fuel (cs.drop k) (pos + k) := by
          simp [tokLoop, hm]
        rw [heq]
        exact TokProduces.emit hm hrec

theorem tokenize_produces (s : String) :
    TokProduces defaultAbbrevs s.data 0 (tokenize s) :=
  tokLoop_produces defaultAbbrevs s.data.length s.data 0 (Nat.le_refl _)

/-! ## Facts about the harness's line processing -/

theorem pySplitPipe_ne_nil (cs : List Char) : pySplitPipe cs ≠ [] := by
  cases cs with
  | nil => simp [pySplitPipe]
  | cons c rest =>
    rw [pySplitPipe]
    split
    · simp
    · cases hp : pySplitPipe rest <;> simp

/-- The spec-side description of the bar deletion: drop every bar character. -/
def removePipes (l : List Char) : List Char := l.filter fun c => !(c = '|')

/-- The spec-side description of the newline handling: remove one trailing
newline when present. -/
def dropTrailNl (l : List Char) : List Char :=
  if l.getLast? = some '\n' then l.dropLast else l

/-- A line as produced by iterating over a text file: any newline can only be
its final character. -/
def fileLine (l : List Char) : Prop := '\n' ∉ l.dropLast

/-- Joining the pieces of a split on bars deletes exactly the bars. -/
theorem pySplitPipe_flatten (cs : List Char) :
    (pySplitPipe cs).flatten = removePipes cs := by
  induction cs with
  | nil => rfl
  | cons c rest ih =>
    rw [pySplitPipe]
    by_cases hc : c = '|'
    · subst hc
      rw [if_pos rfl, List.flatten_cons, List.nil_append, ih]
      simp [removePipes, List.filter_cons]
    · rw [if_neg hc]
      cases hp : pySplitPipe rest with
      | nil => exact absurd hp (pySplitPipe_ne_nil rest)
      | cons p ps =>
        rw [hp] at ih
        simp only [removePipes, List.filter_cons] at ih ⊢
        rw [if_pos (by simpa using hc)]
        simp only [List.flatten_cons] at ih ⊢
        simp [← ih]

theorem pyStrip_eq_nil_iff (l : List Char) :
    pyStrip l = [] ↔ ∀ c ∈ l, pyIsSpace c = true := by
  unfold pyStrip
  rw [List.reverse_eq_nil_iff, List.dropWhile_eq_nil_iff]
  constructor
  · intro h c hc
    have hsplit := List.takeWhile_append_dropWhile pyIsSpace l
    rw [← hsplit] at hc
    rcases List.mem_append.mp hc with hc | hc
    · exact List.mem_takeWhile_imp hc
    · exact h c (List.mem_reverse.mpr hc)
  · intro h c hc
    rw [List.mem_reverse] at hc
    exact h c ((List.dropWhile_sublist pyIsSpace).subset hc)

theorem keepLine_iff (l : List Char) :
    keepLine l = true ↔ ∃ c ∈ l, pyIsSpace c = false := by
  have h1 : keepLine l = true ↔ ¬(pyStrip l = []) := by
    simp [keepLine, List.isEmpty_iff]
  rw [h1, pyStrip_eq_nil_iff]
  push_neg
  constructor
  · intro h
    obtain ⟨c, hc, hcs⟩ := h
    exact ⟨c, hc, by simpa using hcs⟩
  · intro h
    obtain ⟨c, hc, hcs⟩ := h
    exact ⟨c, hc, by simp [hcs]⟩

theorem pyRstripNl_eq_dropTrailNl {l : List Char} (h : fileLine l) :
    pyRstripNl l = dropTrailNl l := by
  rcases hrev : l.reverse with _ | ⟨c, r⟩
  · have hl : l = [] := List.reverse_eq_nil_iff.mp hrev
    subst hl
    rfl
  · have hl : l = r.reverse ++ [c] := by
      have h2 := congrArg List.reverse hrev
      rw [List.reverse_reverse] at h2
      simp [h2]
    have hdl : l.dropLast = r.reverse := by
      rw [hl]
      exact List.dropLast_concat
    have hgl : l.getLast? = some c := by
      rw [hl]
      exact List.getLast?_concat _
    rw [pyRstripNl, hrev]
    by_cases hc : c = '\n'
    · subst hc
      rw [List.dropWhile_cons, if_pos (by simp)]
      have hnr : ∀ x ∈ r, ((x = '\n' : Bool)) = false := by
        intro x hx
        have hx2 : x ∈ l.dropLast := by
          rw [hdl, List.mem_reverse]
          exact hx
        have hxn : x ≠ '\n' := fun hxe => h (hxe ▸ hx2)
        simpa using hxn
      rw [dropWhile_eq_self_of_forall hnr, dropTrailNl, if_pos hgl, hdl]
    · rw [List.dropWhile_cons, if_neg (by simpa using hc)]
      rw [dropTrailNl, if_neg (by rw [hgl]; simpa using hc)]
      rw [← hrev, List.reverse_reverse]

/-! ## Concrete inputs used by the claim theorems -/

def exText : String := "Dr. Smith went home. He left."

def cexC2 : String := " a"

def emptyText : String := ""

def wsText : String := " "

def aText : String := "a"

def abText : String := "ab cd"

def lineText : String := "ab|c\n"

def wText : String := "a b"

/-- The concatenation claim C2 literally describes: the token substrings
joined with only the gaps between consecutive token spans. -/
def interGapsConcat (cs : List Char) : List Token → List Char
  | [] => []
  | [t] => sliceChars cs t.span.start t.span.stop
  | t :: u :: ts =>
    sliceChars cs t.span.start t.span.stop ++ sliceChars cs t.span.stop u.span.start ++
      interGapsConcat cs (u :: ts)

/-! ## Claim theorems -/

/-- C1: the harness is pure glue around the external segmentation library:
every segmentation result it computes is exactly the external function
applied to a loaded text, and its whole output is determined by the external
functions' values on the loaded texts - it contributes no segmentation logic
of its own. -/
theorem bench_pure_glue {α β : Type} (f f' : List Char → List α) (g g' : List Char → List β)
    (sentLines tokLines : List (List Char))
    (hf : ∀ t ∈ benchTexts sentLines, f t = f' t)
    (hg : ∀ t ∈ benchTexts tokLines, g t = g' t) :
    benchHarness f g sentLines tokLines = benchHarness f' g' sentLines tokLines ∧
    (benchHarness f g sentLines tokLines).runs =
      (List.range 3).map (fun _ =>
        ((benchTexts sentLines).map f, (benchTexts tokLines).map g)) := by
  constructor
  · have h1 : (benchTexts sentLines).map f = (benchTexts sentLines).map f' :=
      map_congr_mem hf
    have h2 : ((benchTexts sentLines).take 100).map f =
        ((benchTexts sentLines).take 100).map f' :=
      map_congr_mem fun t ht => hf t (List.take_subset 100 _ ht)
    have h3 : (benchTexts tokLines).map g = (benchTexts tokLines).map g' :=
      map_congr_mem hg
    have h4 : ((benchTexts tokLines).take 100).map g =
        ((benchTexts tokLines).take 100).map g' :=
      map_congr_mem fun t ht => hg t (List.take_subset 100 _ ht)
    unfold benchHarness
    simp only [h1, h2, h3, h4]
  · rfl

/-- Witness for C1 at concrete inputs. -/
theorem bench_pure_glue_witness :
    benchHarness (fun _ => ([] : List Nat)) (fun _ => ([] : List Nat)) [] [] =
      benchHarness (fun _ => ([] : List Nat)) (fun _ => ([] : List Nat)) [] [] ∧
    (benchHarness (fun _ => ([] : List Nat)) (fun _ => ([] : List Nat)) [] []).runs =
      (List.range 3).map (fun _ =>
        ((benchTexts []).map (fun _ => ([] : List Nat)),
          (benchTexts []).map (fun _ => ([] : List Nat)))) :=
  bench_pure_glue _ _ _ _ [] [] (fun _ _ => rfl) (fun _ _ => rfl)

/-- C2 counterexample: on a text with leading whitespace, concatenating the
token substrings with only the gaps between consecutive token spans does not
reconstruct the text. -/
theorem tokens_gaps_concat_cex :
    interGapsConcat cexC2.data (tokenize cexC2) ≠ cexC2.data := by decide

/-- C2 (amended): concatenating the token substrings together with the
whitespace runs before the first token, between consecutive tokens, and after
the last token reconstructs the original text exactly, and every one of those
gaps consists of whitespace only. -/
theorem tokens_reconstruct_text (s : String) :
    reconstruct s.data 0 (tokenize s) = s.data ∧ gapsWhite s.data 0 (tokenize s) :=
  tokLoop_reconstruct defaultAbbrevs s.data.length s.data s.data 0 (Nat.le_refl _)
    rfl (Nat.zero_le _)

/-- C3: the sentences of a text are exactly the spans of a partition of the
token sequence into contiguous non-empty runs - concatenating the runs gives
back the token sequence with no gap and no overlap - and each sentence's span
runs from its first token's start to its last token's stop, covering every
token of its run. -/
theorem sentences_cover_token_runs (s : String) :
    (sentGroupsOf defaultAbbrevs s.data).flatten = tokenize s ∧
    (∀ g ∈ sentGroupsOf defaultAbbrevs s.data, g ≠ []) ∧
    sentenize s = (sentGroupsOf defaultAbbrevs s.data).map groupSpan ∧
    ∀ g ∈ sentGroupsOf defaultAbbrevs s.data, ∀ u ∈ g,
      (groupSpan g).start ≤ u.span.start ∧ u.span.stop ≤ (groupSpan g).stop := by
  have hflat : (sentGroupsOf defaultAbbrevs s.data).flatten = tokenize s := by
    have := sentGroups_flatten s.data (tokenize s).length (tokenize s) [] (Nat.le_refl _)
    simpa using this
  have hne : ∀ g ∈ sentGroupsOf defaultAbbrevs s.data, g ≠ [] :=
    fun g hg => sentGroups_ne_nil s.data _ _ _ g hg
  have hsp : spansOk 0 s.data.length
      ((sentGroupsOf defaultAbbrevs s.data).flatten.map Token.span) := by
    rw [hflat]
    exact tokenize_spansOk s
  exact ⟨hflat, hne, rfl, (groups_spansOk_cover _ 0 s.data.length hne hsp).2⟩

/-- C4: neither engine can raise an error on any input: the error-reporting
presentations always return `ok` with the same result, because the
rule cascade always matches some rule on non-empty remaining input. -/
theorem engines_never_error (s : String) (cs : List Char) (h : cs ≠ []) :
    tokenizeE s = .ok (tokenize s) ∧ sentenizeE s = .ok (sentenize s) ∧
    (matchRule defaultAbbrevs cs).isSome = true := by
  have htok : tokenizeE s = .ok (tokenize s) :=
    tokLoopE_ok defaultAbbrevs s.data.length s.data 0
  refine ⟨htok, ?_, ?_⟩
  · show (tokenizeE s).map _ = _
    rw [htok]
    rfl
  · cases cs with
    | nil => exact absurd rfl h
    | cons c rest => exact matchRule_isSome defaultAbbrevs c rest

/-- Witness for C4 at concrete inputs. -/
theorem engines_never_error_witness :
    tokenizeE wText = .ok (tokenize wText) ∧ sentenizeE wText = .ok (sentenize wText) ∧
    (matchRule defaultAbbrevs wText.data).isSome = true :=
  engines_never_error wText wText.data (by decide)

/-- C6: the scan relation is deterministic and each call realises it afresh
from the initial state, so any two runs of `tokenize` on the same text agree,
and the sentences computed from a run's tokens agree with `sentenize`. -/
theorem engine_deterministic (s : String) (ts ts' : List Token)
    (h : TokProduces defaultAbbrevs s.data 0 ts)
    (h' : TokProduces defaultAbbrevs s.data 0 ts') :
    ts = ts' ∧ ts = tokenize s ∧ sentsOfToks s.data ts = sentenize s := by
  have h1 := tokProduces_det h h'
  have h2 := tokProduces_det h (tokenize_produces s)
  refine ⟨h1, h2, ?_⟩
  rw [h2]
  rfl

/-- Witness for C6: an explicit one-step derivation for a one-letter text. -/
theorem engine_deterministic_witness :
    [Token.mk ⟨0, 1⟩ .word] = tokenize aText ∧
    [Token.mk ⟨0, 1⟩ .word] = tokenize aText ∧
    sentsOfToks aText.data [Token.mk ⟨0, 1⟩ .word] = sentenize aText := by
  have hm : matchRule defaultAbbrevs aText.data = some (1, some .word) := by decide
  have hd : TokProduces defaultAbbrevs aText.data 0 [Token.mk ⟨0, 1⟩ .word] :=
    TokProduces.emit hm (TokProduces.done 1)
  have := engine_deterministic aText [Token.mk ⟨0, 1⟩ .word] [Token.mk ⟨0, 1⟩ .word] hd hd
  exact this

/-- C7: the empty string yields the empty sequence from both engines, and a
text consisting solely of whitespace yields no token. -/
theorem empty_and_whitespace_inputs (s : String)
    (h : ∀ c ∈ s.data, pyIsSpace c = true) :
    tokenize emptyText = [] ∧ sentenize emptyText = [] ∧ tokenize s = [] := by
  refine ⟨rfl, rfl, ?_⟩
  exact tokLoop_all_space defaultAbbrevs s.data.length s.data 0 h

/-- Witness for C7 at a whitespace-only text. -/
theorem empty_and_whitespace_inputs_witness :
    tokenize emptyText = [] ∧ sentenize emptyText = [] ∧ tokenize wsText = [] :=
  empty_and_whitespace_inputs wsText (by decide)

/-- C8: the Dr. Smith example produces exactly the expected tokens and
sentences; the abbreviation absorbs its period and opens no boundary. -/
theorem dr_smith_example :
    (tokenize exText).map (tokenText exText) =
      ["Dr.", "Smith", "went", "home", ".", "He", "left", "."] ∧
    (sentenize exText).map (spanText exText) =
      ["Dr. Smith went home.", "He left."] := by
  constructor <;> decide

/-- C9 counterexample: whitespace-only text is non-empty and contains no
terminal punctuation, yet `sentenize` yields no sentence at all rather than
exactly one. -/
theorem single_sentence_cex :
    wsText.data ≠ [] ∧ (∀ c ∈ wsText.data, isTerminalChar c = false) ∧
    (sentenize wsText).length ≠ 1 := by decide

/-- C9 (amended): every text containing at least one non-whitespace character
and no terminal punctuation yields exactly one sentence, whose span covers
all tokens of the text. -/
theorem no_terminal_single_sentence (s : String)
    (h1 : ∃ c ∈ s.data, pyIsSpace c = false)
    (h2 : ∀ c ∈ s.data, isTerminalChar c = false) :
    sentenize s = [groupSpan (tokenize s)] ∧ tokenize s ≠ [] ∧
    ∀ t ∈ tokenize s, (groupSpan (tokenize s)).start ≤ t.span.start ∧
      t.span.stop ≤ (groupSpan (tokenize s)).stop := by
  have hne : tokenize s ≠ [] := by
    intro h0
    obtain ⟨c, hc, hcw⟩ := h1
    have hgw := (tokLoop_reconstruct defaultAbbrevs s.data.length s.data s.data 0
      (Nat.le_refl _) rfl (Nat.zero_le _)).2
    have hgw2 : gapsWhite s.data 0 ([] : List Token) := by
      rw [← h0]
      exact hgw
    have hmem : c ∈ sliceChars s.data 0 s.data.length := by
      rw [sliceChars_to_end, List.drop_zero]
      exact hc
    have := hgw2 c hmem
    rw [hcw] at this
    cases this
  have hnt : ∀ t ∈ tokenize s, t.kind ≠ .terminal :=
    tokLoop_no_terminal defaultAbbrevs s.data.length s.data 0 h2
  have hgroups : sentGroups s.data (tokenize s).length (tokenize s) [] = [tokenize s] := by
    have := sentGroups_no_terminal s.data (tokenize s).length (tokenize s) []
      (Nat.le_refl _) hnt (by simpa using hne)
    simpa using this
  refine ⟨?_, hne, ?_⟩
  · show sentsOfToks s.data (tokenize s) = _
    unfold sentsOfToks
    rw [hgroups]
    rfl
  · cases htk : tokenize s with
    | nil => exact absurd htk hne
    | cons t g' =>
      have hsp := tokenize_spansOk s
      rw [htk] at hsp
      have hsp2 : spansOk 0 s.data.length ((t :: g').map Token.span ++ []) := by
        simpa using hsp
      have hb := groupSpan_bounds g' t 0 s.data.length [] hsp2
      intro u hu
      exact hb.2.2.2.2.2 u hu

/-- Witness for C9 (amended) at a two-word text. -/
theorem no_terminal_single_sentence_witness :
    sentenize abText = [groupSpan (tokenize abText)] ∧ tokenize abText ≠ [] ∧
    ∀ t ∈ tokenize abText, (groupSpan (tokenize abText)).start ≤ t.span.start ∧
      t.span.stop ≤ (groupSpan (tokenize abText)).stop :=
  no_terminal_single_sentence abText (by decide) (by decide)

/-- C10: a fixture line is kept iff it contains a non-whitespace character,
and the benchmark text derived from a kept line is the line with its trailing
newline removed and every bar character deleted. -/
theorem line_filter_and_transform (l : List Char) (h : fileLine l) :
    (keepLine l = true ↔ ∃ c ∈ l, pyIsSpace c = false) ∧
    benchText (pyRstripNl l) = removePipes (dropTrailNl l) := by
  refine ⟨keepLine_iff l, ?_⟩
  rw [benchText, pySplitPipe_flatten, pyRstripNl_eq_dropTrailNl h]

/-- Witness for C10 at a concrete fixture line. -/
theorem line_filter_and_transform_witness :
    (keepLine lineText.data = true ↔ ∃ c ∈ lineText.data, pyIsSpace c = false) ∧
    benchText (pyRstripNl lineText.data) = removePipes (dropTrailNl lineText.data) :=
  line_filter_and_transform lineText.data
    (by show '\n' ∉ lineText.data.dropLast; decide)

/-- C5: every token span and every sentence span satisfies
start < stop ≤ length of the text, and spans at the same level never
overlap: each level's spans are listed left to right with each span ending
no later than the next one starts. -/
theorem spans_valid_disjoint (s : String) :
    (∀ t ∈ tokenize s, t.span.start < t.span.stop ∧ t.span.stop ≤ s.data.length) ∧
    ((tokenize s).map Token.span).Pairwise (fun a b => a.stop ≤ b.start) ∧
    (∀ sp ∈ sentenize s, sp.start < sp.stop ∧ sp.stop ≤ s.data.length) ∧
    (sentenize s).Pairwise (fun a b => a.stop ≤ b.start) := by
  have htok := tokenize_spansOk s
  have hflat : (sentGroupsOf defaultAbbrevs s.data).flatten = tokenize s := by
    have := sentGroups_flatten s.data (tokenize s).length (tokenize s) [] (Nat.le_refl _)
    simpa using this
  have hne : ∀ g ∈ sentGroupsOf defaultAbbrevs s.data, g ≠ [] :=
    fun g hg => sentGroups_ne_nil s.data _ _ _ g hg
  have hsp : spansOk 0 s.data.length
      ((sentGroupsOf defaultAbbrevs s.data).flatten.map Token.span) := by
    rw [hflat]
    exact htok
  have hsent := (groups_spansOk_cover _ 0 s.data.length hne hsp).1
  refine ⟨?_, spansOk_pairwise htok, ?_, spansOk_pairwise hsent⟩
  · intro t ht
    have hb := spansOk_bounds htok t.span (List.mem_map_of_mem Token.span ht)
    exact ⟨hb.2.1, hb.2.2⟩
  · intro sp hsp2
    have hb := spansOk_bounds hsent sp hsp2
    exact ⟨hb.2.1, hb.2.2⟩

end Razdel
